import Mathlib

/-!
# Market-Basket-Analysis Dashboard — verification development

Shallow embedding of the market-basket pipeline of `dashboard3.py` /
`dashboardd.py`:

* `basketValue` / `transactionsOf` — the one-hot encoding built by the
  `basket_sets` pipeline (`groupby ... count`, then `> 0`).
* `support`, `apriori` — the frequent-itemset mining stage.  The source calls
  `mlxtend.frequent_patterns.apriori`, whose body is not part of this
  repository, so it is modelled from the spec (level-wise search with an
  inclusive `support ≥ min_support` threshold).
* `associationRules` — the rule-generation stage; the source calls
  `mlxtend.frequent_patterns.association_rules` with `metric="confidence"`,
  modelled from the spec; the subsequent `lift` filter is in the source.
* `drawNetworkGraph` — the graph-folding step of `draw_network`, with the
  `networkx.DiGraph.add_edge` overwrite semantics (a repeated insertion of the
  same ordered pair replaces the stored attributes).
* `convert_df_to_csv` — the export of the displayed rule table, whose
  antecedent/consequent columns are the `", ".join(...)` strings.

Items are product names, i.e. strings.  Ratios (support, confidence, lift)
are rationals.
-/

namespace MBA

/-- An item is a product name (an opaque, comparable identifier). -/
abbrev Item := String

/-- An itemset, in the canonical order inherited from the item universe. -/
abbrev Itemset := List Item

/-! ## TransactionStore: the `basket_sets` one-hot encoding

`basket = df.groupby(['order_id','product'])['product'].count().unstack()...`
followed by `basket_sets = (basket > 0).astype(int)`. -/

/-- Number of occurrences of the pair `(t, i)` among the input
`(order_id, product)` rows — the `groupby(...).count()` cell. -/
def pairCount (pairs : List (Item × Item)) (t i : Item) : Nat :=
  (pairs.filter (fun p => p.1 = t && p.2 = i)).length

/-- The one-hot cell of `basket_sets`: `(count > 0).astype(int)`. -/
def basketValue (pairs : List (Item × Item)) (t i : Item) : Nat :=
  if 0 < pairCount pairs t i then 1 else 0

/-- The distinct transaction ids, in order of last occurrence. -/
def transactionIds (pairs : List (Item × Item)) : List Item :=
  (pairs.map (fun p => p.1)).dedup

/-- The distinct products (the columns of `basket_sets`). -/
def productList (pairs : List (Item × Item)) : List Item :=
  (pairs.map (fun p => p.2)).dedup

/-- The rows of `basket_sets` read back as item lists: transaction `t`
contains exactly the products whose one-hot cell is `1`. -/
def transactionsOf (pairs : List (Item × Item)) : List (List Item) :=
  (transactionIds pairs).map
    (fun t => (productList pairs).filter (fun i => basketValue pairs t i = 1))

/-! ## ItemsetMiner

Modelled from the spec: the source calls `mlxtend`'s `apriori` (not part of
this repository); the spec re-specifies it as a level-wise search keeping
itemsets with `support ≥ min_support` (inclusive). -/

/-- Count of transactions containing every item of `s`. -/
def supportCount (ts : List (List Item)) (s : Itemset) : Nat :=
  (ts.filter (fun t => s.all (fun i => i ∈ t))).length

/-- Modelled from the spec: support of an itemset = (count of transactions
containing it) / N, a ratio in `[0,1]`. -/
def support (ts : List (List Item)) (s : Itemset) : ℚ :=
  (supportCount ts s : ℚ) / (ts.length : ℚ)

/-- The item universe: every distinct item of the dataset, in a fixed order. -/
def itemUniverse (ts : List (List Item)) : List Item :=
  (ts.foldr (fun t acc => t ++ acc) []).dedup

/-- Modelled from the spec: the frequent itemsets of size `k`, produced
level-wise.  Level 1 enumerates the distinct items; level `k ≥ 2` keeps only
candidates all of whose `(k-1)`-subsets were frequent at the previous level
(join + antimonotone prune), and every level applies the inclusive filter
`support ≥ min_support`.  Candidates are the `k`-element sublists of the item
universe, so each itemset has one canonical representation. -/
def aprioriLevel (ts : List (List Item)) (minSupport : ℚ) (univ : List Item) :
    Nat → List Itemset
  | 0 => []
  | 1 =>
      (univ.sublists.filter (fun c => c.length = 1)).filter
        (fun s => minSupport ≤ support ts s)
  | (k + 2) =>
      let prev := aprioriLevel ts minSupport univ (k + 1)
      ((univ.sublists.filter
          (fun c => c.length = k + 2 &&
            ((c.sublists.filter (fun s => s.length = k + 1)).all
              (fun s => s ∈ prev)))).filter
        (fun s => minSupport ≤ support ts s))

/-- Modelled from the spec: the full frequent-itemset collection, each paired
with its support — the union of all levels `L1, L2, ...`. -/
def apriori (ts : List (List Item)) (minSupport : ℚ) : List (Itemset × ℚ) :=
  let univ := itemUniverse ts
  (((List.range univ.length).map
      (fun k => aprioriLevel ts minSupport univ (k + 1))).foldr
    (fun l acc => l ++ acc) []).map (fun s => (s, support ts s))

/-! ## RuleGenerator

Modelled from the spec: the source calls `mlxtend`'s `association_rules` with
`metric="confidence"` and `min_threshold=min_confidence` (not part of this
repository); the spec re-specifies it as the enumeration of all non-trivial
bipartitions of each frequent itemset, emitted when
`confidence ≥ min_confidence`.  The subsequent `lift` filter
(`rules = rules[rules['lift'] >= min_lift]`) is in the source. -/

/-- An association rule row, with the five displayed columns. -/
structure Rule where
  antecedents : Itemset
  consequents : Itemset
  support : ℚ
  confidence : ℚ
  lift : ℚ
deriving DecidableEq, Repr

/-- Modelled from the spec: the rule obtained by splitting the frequent
itemset `s` into the antecedent `ant` and the complementary consequent, with
`support = support(s)`, `confidence = support(s)/support(ant)` and
`lift = confidence/support(consequent)`. -/
def ruleOf (ts : List (List Item)) (s ant : Itemset) : Rule :=
  let cs := s.filter (fun i => i ∉ ant)
  { antecedents := ant
    consequents := cs
    support := support ts s
    confidence := support ts s / support ts ant
    lift := support ts s / support ts ant / support ts cs }

/-- Modelled from the spec: all candidate rules — for every frequent itemset
of size ≥ 2, every bipartition into a non-empty antecedent (a proper sublist)
and its non-empty complementary consequent. -/
def ruleCandidates (ts : List (List Item)) (minSupport : ℚ) : List Rule :=
  ((apriori ts minSupport).filter (fun sv => 2 ≤ sv.1.length)).flatMap
    (fun sv =>
      ((sv.1.sublists.filter
          (fun a => !a.isEmpty && a.length ≠ sv.1.length)).map
        (fun ant => ruleOf ts sv.1 ant)))

/-- Modelled from the spec: the generator emits a candidate rule exactly when
its confidence clears the (inclusive) `min_confidence` threshold; no other
threshold is enforced here. -/
def associationRules (ts : List (List Item)) (minSupport minConfidence : ℚ) :
    List Rule :=
  (ruleCandidates ts minSupport).filter
    (fun r => minConfidence ≤ r.confidence)

/-- The final rule collection: the caller-side lift filter
`rules = rules[rules['lift'] >= min_lift]` of the source applied to the
generator output. -/
def finalRules (ts : List (List Item))
    (minSupport minConfidence minLift : ℚ) : List Rule :=
  (associationRules ts minSupport minConfidence).filter
    (fun r => minLift ≤ r.lift)

/-! ## Pipeline errors

Modelled from the spec: the error taxonomy of §7.  The dashboard glue in the
repository does not itself implement these checks, so the pipeline wrapper is
modelled from the spec's words. -/

/-- Modelled from the spec: the fatal error taxonomy of the core. -/
inductive PipelineError
  | emptyDataset
  | configuration
  | malformedInput
  | invariantViolation
deriving DecidableEq, Repr

/-- Modelled from the spec: the end-to-end pipeline.  A transaction count of
zero is an `EmptyDatasetError` surfaced before mining begins; otherwise the
(possibly empty) final rule collection is returned as valid output. -/
def pipeline (pairs : List (Item × Item))
    (minSupport minConfidence minLift : ℚ) :
    Except PipelineError (List Rule) :=
  let ts := transactionsOf pairs
  if ts.length = 0 then .error .emptyDataset
  else .ok (finalRules ts minSupport minConfidence minLift)

/-! ## GraphBuilder: `draw_network`

The graph-folding step of `draw_network` (source):
```
filtered_rules = rules[rules[selected_metric] >= min_val]
for _, row in filtered_rules.iterrows():
    for ant in antecedents:
        for cons in consequents:
            G.add_edge(ant, cons, weight=row[selected_metric],
                       title=f"Lift: ...")
```
`G` is a `networkx.DiGraph`: a repeated `add_edge` on the same ordered pair
keeps a single edge and replaces its attributes with the newly supplied ones
(last write wins); nodes come into existence only as edge endpoints. -/

/-- The metric selectable for edge weights (`metric_choice`). -/
inductive Metric
  | support
  | confidence
  | lift
deriving DecidableEq, Repr

/-- The column of the rule row named by the selected metric. -/
def metricValue (r : Rule) : Metric → ℚ
  | .support => r.support
  | .confidence => r.confidence
  | .lift => r.lift

/-- A directed edge with its attributes: `weight` is the selected-metric
value, `title` the lift annotation (the source renders it as the string
`f"Lift: {lift:.2f}"`; the attached value is what matters here). -/
structure Edge where
  src : Item
  tgt : Item
  weight : ℚ
  title : ℚ
deriving DecidableEq, Repr

/-- `DiGraph.add_edge`: if an edge with the same ordered endpoint pair is
already present its attributes are replaced, otherwise the edge is appended. -/
def addEdge (es : List Edge) (e : Edge) : List Edge :=
  if es.any (fun e0 => e0.src = e.src && e0.tgt = e.tgt) then
    es.map (fun e0 => if e0.src = e.src && e0.tgt = e.tgt then e else e0)
  else es ++ [e]

/-- `rules[rules[selected_metric] >= min_val]`. -/
def filteredRules (rules : List Rule) (m : Metric) (minVal : ℚ) : List Rule :=
  rules.filter (fun r => minVal ≤ metricValue r m)

/-- The edges contributed by one rule row: one `add_edge` per
(antecedent item, consequent item) pair, in iteration order. -/
def addRuleEdges (m : Metric) (es : List Edge) (r : Rule) : List Edge :=
  r.antecedents.foldl
    (fun es1 a =>
      r.consequents.foldl
        (fun es2 c =>
          addEdge es2
            { src := a, tgt := c, weight := metricValue r m, title := r.lift })
        es1)
    es

/-- The edge list of the graph built by `draw_network`. -/
def drawNetworkGraph (rules : List Rule) (m : Metric) (minVal : ℚ) :
    List Edge :=
  (filteredRules rules m minVal).foldl (addRuleEdges m) []

/-- The node list of the graph: `DiGraph` nodes arise here only as endpoints
of added edges. -/
def graphNodes (es : List Edge) : List Item :=
  (es.flatMap (fun e => [e.src, e.tgt])).dedup

/-- Lookup of the unique edge on an ordered pair, if present. -/
def findEdge (es : List Edge) (a c : Item) : Option Edge :=
  es.find? (fun e => e.src = a && e.tgt = c)

/-- `float(rules[metric_choice].min())`: the observed minimum of the selected
metric over the filtered rules — the default value of the graph slider. -/
def minMetricValue (rules : List Rule) (m : Metric) : ℚ :=
  match rules.map (fun r => metricValue r m) with
  | [] => 0
  | v :: vs => vs.foldl min v

/-! ## CSV export (`dashboardd.py`)

`display_rules` replaces the antecedent and consequent frozensets by their
`', '.join(list(a))` strings, and `convert_df_to_csv` serializes the table
(`df.to_csv(index=False).encode('utf-8')`).  A CSV field is modelled by the
exact value it renders: the joined string for the item columns and the
numeric value for the metric columns (the delimiter/quoting layer of
`to_csv` is faithful for individual fields). -/

/-- Python's `', '.join(items)`. -/
def joinItems : List Item → String
  | [] => ""
  | [x] => x
  | x :: y :: xs => x ++ ", " ++ joinItems (y :: xs)

/-- One exported row: the five displayed columns, with antecedents and
consequents in their joined-string form. -/
structure CsvRow where
  antecedents : String
  consequents : String
  support : ℚ
  confidence : ℚ
  lift : ℚ
deriving DecidableEq, Repr

/-- `convert_df_to_csv` applied to the displayed table: one serialized row
per rule. -/
def convert_df_to_csv (rules : List Rule) : List CsvRow :=
  rules.map (fun r =>
    { antecedents := joinItems r.antecedents
      consequents := joinItems r.consequents
      support := r.support
      confidence := r.confidence
      lift := r.lift })

/-- Number of edges of the graph on a given ordered pair. -/
def edgeCount (es : List Edge) (a c : Item) : Nat :=
  (es.filter (fun e => e.src = a && e.tgt = c)).length

/-- The last rule, in iteration order, among the graph-stage survivors that
contributes the ordered pair `(a, c)`. -/
def lastRuleFor (rules : List Rule) (m : Metric) (minVal : ℚ) (a c : Item) :
    Option Rule :=
  ((filteredRules rules m minVal).filter
    (fun r => a ∈ r.antecedents && c ∈ r.consequents)).getLast?

/-- The uniqueness invariant of `DiGraph` edge lists: no two stored edges
share an ordered endpoint pair. -/
def pairsNodup (es : List Edge) : Prop :=
  es.Pairwise (fun e1 e2 => ¬(e1.src = e2.src ∧ e1.tgt = e2.tgt))

/-- A character does not occur in a string. -/
abbrev charFree (ch : Char) (s : String) : Prop := ch ∉ s.data

/-- The spec's worked example: transactions
`{T1:{milk,bread}, T2:{milk,bread,eggs}, T3:{milk}, T4:{bread,eggs}}`. -/
def exampleTransactions : List (List Item) :=
  [["milk", "bread"], ["milk", "bread", "eggs"], ["milk"], ["bread", "eggs"]]

/-! ## Helper lemmas: mining -/

theorem support_nonneg (ts : List (List Item)) (s : Itemset) :
    0 ≤ support ts s := by
  unfold support
  positivity

theorem support_le_one (ts : List (List Item)) (s : Itemset) :
    support ts s ≤ 1 := by
  unfold support supportCount
  rcases Nat.eq_zero_or_pos ts.length with h | h
  · rw [List.length_eq_zero] at h
    subst h
    simp
  · rw [div_le_one (by exact_mod_cast h)]
    exact_mod_cast List.length_filter_le _ ts

theorem supportCount_anti (ts : List (List Item)) {A B : Itemset}
    (h : A ⊆ B) : supportCount ts B ≤ supportCount ts A := by
  unfold supportCount
  refine (List.monotone_filter_right ts ?_).length_le
  intro t ht
  rw [List.all_eq_true] at ht ⊢
  intro i hi
  exact ht i (h hi)

theorem support_anti (ts : List (List Item)) {A B : Itemset}
    (h : A ⊆ B) : support ts B ≤ support ts A := by
  unfold support
  rcases Nat.eq_zero_or_pos ts.length with h0 | h0
  · simp [h0]
  · have hlen : (0 : ℚ) < (ts.length : ℚ) := by exact_mod_cast h0
    rw [div_le_div_iff_of_pos_right hlen]
    exact_mod_cast supportCount_anti ts h

theorem mem_foldr_append {α β : Type _} {f : β → List α} {l : List β}
    {x : α} :
    x ∈ (l.map f).foldr (fun a acc => a ++ acc) [] ↔ ∃ b ∈ l, x ∈ f b := by
  induction l with
  | nil => simp
  | cons b l ih => simp [ih]

theorem mem_aprioriLevel {ts : List (List Item)} {ms : ℚ} {univ : List Item}
    {k : Nat} {s : Itemset} (h : s ∈ aprioriLevel ts ms univ k) :
    ms ≤ support ts s := by
  match k with
  | 0 => simp [aprioriLevel] at h
  | 1 =>
      rw [aprioriLevel, List.mem_filter] at h
      exact of_decide_eq_true h.2
  | k + 2 =>
      rw [aprioriLevel, List.mem_filter] at h
      exact of_decide_eq_true h.2

theorem mem_apriori {ts : List (List Item)} {ms : ℚ} {s : Itemset} {v : ℚ}
    (h : (s, v) ∈ apriori ts ms) : v = support ts s ∧ ms ≤ v := by
  unfold apriori at h
  rw [List.mem_map] at h
  obtain ⟨s0, hs0, heq⟩ := h
  obtain ⟨h1, h2⟩ := Prod.mk.injEq .. ▸ heq
  rw [mem_foldr_append] at hs0
  obtain ⟨k, _, hk⟩ := hs0
  subst h1
  refine ⟨h2.symm, ?_⟩
  rw [← h2]
  exact mem_aprioriLevel hk

/-! ## Helper lemmas: graph folding -/

theorem addEdge_cons_of_ne {e0 e : Edge}
    (h : ¬(e0.src = e.src ∧ e0.tgt = e.tgt)) (es : List Edge) :
    addEdge (e0 :: es) e = e0 :: addEdge es e := by
  have hb : (decide (e0.src = e.src) && decide (e0.tgt = e.tgt)) = false := by
    simp only [Bool.and_eq_false_iff, decide_eq_false_iff_not]
    by_cases h1 : e0.src = e.src
    · exact Or.inr fun h2 => h ⟨h1, h2⟩
    · exact Or.inl h1
  unfold addEdge
  rw [List.any_cons, hb, Bool.false_or]
  by_cases h2 :
      (es.any fun x => decide (x.src = e.src) && decide (x.tgt = e.tgt)) = true
  · rw [if_pos h2, if_pos h2, List.map_cons, hb]
    simp
  · rw [if_neg h2, if_neg h2]
    rfl

theorem findEdge_map_of_ne {es : List Edge} {e : Edge} {a c : Item}
    (h : ¬(e.src = a ∧ e.tgt = c)) :
    findEdge
        (es.map (fun e0 =>
          if e0.src = e.src && e0.tgt = e.tgt then e else e0)) a c =
      findEdge es a c := by
  induction es with
  | nil => rfl
  | cons e0 es ih =>
      by_cases hk : (e0.src = e.src && e0.tgt = e.tgt) = true
      · obtain ⟨hk1, hk2⟩ := Bool.and_eq_true_iff.mp hk
        rw [decide_eq_true_eq] at hk1 hk2
        have h0 : ¬(e0.src = a ∧ e0.tgt = c) := by
          rw [hk1, hk2]; exact h
        simp only [List.map_cons, hk, if_true]
        unfold findEdge at ih ⊢
        rw [List.find?_cons_of_neg, List.find?_cons_of_neg, ih]
        · simp only [Bool.and_eq_true, decide_eq_true_eq, not_and]
          intro h1 h2; exact h0 ⟨h1, h2⟩
        · simp only [Bool.and_eq_true, decide_eq_true_eq, not_and]
          intro h1 h2; exact h ⟨h1, h2⟩
      · simp only [List.map_cons, hk, if_false, Bool.false_eq_true]
        unfold findEdge at ih ⊢
        by_cases hm :
            (decide (e0.src = a) && decide (e0.tgt = c)) = true
        · rw [List.find?_cons_of_pos
              (p := fun x : Edge => decide (x.src = a) && decide (x.tgt = c)) _ hm,
            List.find?_cons_of_pos
              (p := fun x : Edge => decide (x.src = a) && decide (x.tgt = c)) _ hm]
        · rw [List.find?_cons_of_neg
              (p := fun x : Edge => decide (x.src = a) && decide (x.tgt = c)) _ hm,
            List.find?_cons_of_neg
              (p := fun x : Edge => decide (x.src = a) && decide (x.tgt = c)) _ hm,
            ih]

theorem findEdge_addEdge (es : List Edge) (e : Edge) (a c : Item) :
    findEdge (addEdge es e) a c =
      if e.src = a ∧ e.tgt = c then some e else findEdge es a c := by
  induction es with
  | nil =>
      by_cases h : e.src = a ∧ e.tgt = c
      · rw [if_pos h]
        unfold addEdge findEdge
        simp [h.1, h.2]
      · rw [if_neg h]
        unfold addEdge findEdge
        simp only [List.any_nil, if_false, List.nil_append, Bool.false_eq_true]
        rw [List.find?_cons_of_neg, List.find?_nil]
        simp only [Bool.and_eq_true, decide_eq_true_eq, not_and]
        intro h1 h2; exact h ⟨h1, h2⟩
  | cons e0 es ih =>
      by_cases hk : e0.src = e.src ∧ e0.tgt = e.tgt
      · -- the head is overwritten together with every other matching entry
        have hb : (e0.src = e.src && e0.tgt = e.tgt) = true := by
          simp [hk.1, hk.2]
        unfold addEdge
        rw [List.any_cons, hb, Bool.true_or, if_pos rfl, List.map_cons, hb,
          if_pos rfl]
        by_cases h : e.src = a ∧ e.tgt = c
        · rw [if_pos h]
          unfold findEdge
          rw [List.find?_cons_of_pos]
          simp [h.1, h.2]
        · rw [if_neg h]
          unfold findEdge
          rw [List.find?_cons_of_neg, List.find?_cons_of_neg]
          · exact findEdge_map_of_ne h
          · simp only [Bool.and_eq_true, decide_eq_true_eq, not_and]
            intro h1 h2
            exact h ⟨hk.1 ▸ h1, hk.2 ▸ h2⟩
          · simp only [Bool.and_eq_true, decide_eq_true_eq, not_and]
            intro h1 h2; exact h ⟨h1, h2⟩
      · rw [addEdge_cons_of_ne hk]
        by_cases hm : e0.src = a ∧ e0.tgt = c
        · have h : ¬(e.src = a ∧ e.tgt = c) := by
            intro h
            exact hk ⟨hm.1.trans h.1.symm, hm.2.trans h.2.symm⟩
          rw [if_neg h]
          unfold findEdge
          rw [List.find?_cons_of_pos, List.find?_cons_of_pos]
          · simp [hm.1, hm.2]
          · simp [hm.1, hm.2]
        · unfold findEdge at ih ⊢
          rw [List.find?_cons_of_neg, List.find?_cons_of_neg, ih]
          · simp only [Bool.and_eq_true, decide_eq_true_eq, not_and]
            intro h1 h2; exact hm ⟨h1, h2⟩
          · simp only [Bool.and_eq_true, decide_eq_true_eq, not_and]
            intro h1 h2; exact hm ⟨h1, h2⟩

theorem pairsNodup_addEdge {es : List Edge} (e : Edge)
    (h : pairsNodup es) : pairsNodup (addEdge es e) := by
  unfold addEdge
  by_cases h2 :
      (es.any fun x => decide (x.src = e.src) && decide (x.tgt = e.tgt)) = true
  · rw [if_pos h2]
    refine List.Pairwise.map _ ?_ h
    intro x y hxy
    by_cases hx : (decide (x.src = e.src) && decide (x.tgt = e.tgt)) = true
    · obtain ⟨hx1, hx2⟩ := Bool.and_eq_true_iff.mp hx
      rw [decide_eq_true_eq] at hx1 hx2
      by_cases hy : (decide (y.src = e.src) && decide (y.tgt = e.tgt)) = true
      · obtain ⟨hy1, hy2⟩ := Bool.and_eq_true_iff.mp hy
        rw [decide_eq_true_eq] at hy1 hy2
        exact absurd ⟨hx1.trans hy1.symm, hx2.trans hy2.symm⟩ hxy
      · rw [if_pos hx, if_neg hy]
        intro hc
        exact hxy ⟨hx1.trans hc.1, hx2.trans hc.2⟩
    · by_cases hy : (decide (y.src = e.src) && decide (y.tgt = e.tgt)) = true
      · obtain ⟨hy1, hy2⟩ := Bool.and_eq_true_iff.mp hy
        rw [decide_eq_true_eq] at hy1 hy2
        rw [if_neg hx, if_pos hy]
        intro hc
        exact hxy ⟨hc.1.trans hy1.symm, hc.2.trans hy2.symm⟩
      · rw [if_neg hx, if_neg hy]
        exact hxy
  · rw [if_neg h2]
    refine List.pairwise_append.mpr ⟨h, List.pairwise_singleton _ _, ?_⟩
    intro x hx y hy
    rw [List.mem_singleton] at hy
    subst hy
    intro hc
    rw [List.any_eq_true] at h2
    exact h2 ⟨x, hx, by simp [hc.1, hc.2]⟩

theorem pairsNodup_foldl {γ : Type _} (step : List Edge → γ → List Edge)
    (hstep : ∀ es g, pairsNodup es → pairsNodup (step es g)) :
    ∀ (l : List γ) (es : List Edge),
      pairsNodup es → pairsNodup (l.foldl step es) := by
  intro l
  induction l with
  | nil => exact fun es h => h
  | cons g l ih => exact fun es h => ih _ (hstep es g h)

theorem pairsNodup_addRuleEdges (m : Metric) {es : List Edge} (r : Rule)
    (h : pairsNodup es) : pairsNodup (addRuleEdges m es r) := by
  unfold addRuleEdges
  refine pairsNodup_foldl _ ?_ _ _ h
  intro es1 a h1
  exact pairsNodup_foldl _ (fun es2 c h2 => pairsNodup_addEdge _ h2) _ _ h1

theorem pairsNodup_drawNetworkGraph (rules : List Rule) (m : Metric)
    (minVal : ℚ) : pairsNodup (drawNetworkGraph rules m minVal) := by
  unfold drawNetworkGraph
  exact pairsNodup_foldl _ (fun es r h => pairsNodup_addRuleEdges m r h) _ _
    List.Pairwise.nil

theorem findEdge_inner_foldl (w l : ℚ) (x : Item) (cs : List Item)
    (es : List Edge) (a c : Item) :
    findEdge
        (cs.foldl
          (fun es2 c2 =>
            addEdge es2 { src := x, tgt := c2, weight := w, title := l })
          es) a c =
      if x = a ∧ c ∈ cs
      then some { src := a, tgt := c, weight := w, title := l }
      else findEdge es a c := by
  induction cs generalizing es with
  | nil => simp
  | cons c0 cs ih =>
      rw [List.foldl_cons, ih]
      by_cases h1 : x = a ∧ c ∈ cs
      · rw [if_pos h1, if_pos ⟨h1.1, List.mem_cons_of_mem _ h1.2⟩]
      · rw [if_neg h1, findEdge_addEdge]
        by_cases h2 : x = a ∧ c0 = c
        · rw [if_pos h2, if_pos ⟨h2.1, h2.2 ▸ List.mem_cons_self _ _⟩]
          rw [h2.1, h2.2]
        · rw [if_neg h2, if_neg ?_]
          intro hc
          rcases List.mem_cons.mp hc.2 with he | hm
          · exact h2 ⟨hc.1, he.symm⟩
          · exact h1 ⟨hc.1, hm⟩

theorem findEdge_addRuleEdges (m : Metric) (r : Rule) (es : List Edge)
    (a c : Item) :
    findEdge (addRuleEdges m es r) a c =
      if a ∈ r.antecedents ∧ c ∈ r.consequents
      then some { src := a, tgt := c, weight := metricValue r m,
                  title := r.lift }
      else findEdge es a c := by
  unfold addRuleEdges
  generalize r.antecedents = as
  induction as generalizing es with
  | nil => simp
  | cons x as ih =>
      rw [List.foldl_cons, ih]
      by_cases h1 : a ∈ as ∧ c ∈ r.consequents
      · rw [if_pos h1, if_pos ⟨List.mem_cons_of_mem _ h1.1, h1.2⟩]
      · rw [if_neg h1, findEdge_inner_foldl]
        by_cases h2 : x = a ∧ c ∈ r.consequents
        · rw [if_pos h2, if_pos ⟨h2.1 ▸ List.mem_cons_self _ _, h2.2⟩]
        · rw [if_neg h2, if_neg ?_]
          intro hc
          rcases List.mem_cons.mp hc.1 with he | hm
          · exact h2 ⟨he.symm, hc.2⟩
          · exact h1 ⟨hm, hc.2⟩

theorem findEdge_foldl_rules (m : Metric) (rl : List Rule) (es : List Edge)
    (a c : Item) :
    findEdge (rl.foldl (addRuleEdges m) es) a c =
      match
        (rl.filter
          (fun r => a ∈ r.antecedents && c ∈ r.consequents)).getLast? with
      | some r =>
          some { src := a, tgt := c, weight := metricValue r m,
                 title := r.lift }
      | none => findEdge es a c := by
  induction rl generalizing es with
  | nil => simp
  | cons r rl ih =>
      rw [List.foldl_cons, ih]
      by_cases hr : a ∈ r.antecedents ∧ c ∈ r.consequents
      · rw [List.filter_cons_of_pos (by simp [hr.1, hr.2])]
        cases hfe :
            rl.filter (fun r => a ∈ r.antecedents && c ∈ r.consequents) with
        | nil =>
            simp only [List.getLast?_nil, List.getLast?_singleton]
            rw [findEdge_addRuleEdges, if_pos hr]
        | cons b bl =>
            rw [List.getLast?_cons_cons]
            cases hlast : (b :: bl).getLast? with
            | none =>
                rw [List.getLast?_eq_none_iff] at hlast
                exact absurd hlast (List.cons_ne_nil b bl)
            | some r0 => rfl
      · rw [List.filter_cons_of_neg
          (by simp only [Bool.and_eq_true, decide_eq_true_eq, not_and]
              intro h1 h2; exact hr ⟨h1, h2⟩)]
        cases hlast :
            (rl.filter
              (fun r => a ∈ r.antecedents && c ∈ r.consequents)).getLast? with
        | some r0 => rfl
        | none => rw [findEdge_addRuleEdges, if_neg hr]

theorem edgeCount_le_one {es : List Edge} (h : pairsNodup es) (a c : Item) :
    edgeCount es a c ≤ 1 := by
  unfold edgeCount
  have hp :
      (es.filter fun e => decide (e.src = a) && decide (e.tgt = c)).Pairwise
        (fun e1 e2 => ¬(e1.src = e2.src ∧ e1.tgt = e2.tgt)) :=
    List.Pairwise.filter _ h
  cases hl : es.filter fun e => decide (e.src = a) && decide (e.tgt = c) with
  | nil => simp
  | cons x xs =>
      cases xs with
      | nil => simp
      | cons y ys =>
          exfalso
          rw [hl, List.pairwise_cons] at hp
          have hx : x ∈ es.filter fun e => decide (e.src = a) && decide (e.tgt = c) := by
            rw [hl]; exact List.mem_cons_self _ _
          have hy : y ∈ es.filter fun e => decide (e.src = a) && decide (e.tgt = c) := by
            rw [hl]; exact List.mem_cons_of_mem _ (List.mem_cons_self _ _)
          rw [List.mem_filter] at hx hy
          obtain ⟨hx1, hx2⟩ := Bool.and_eq_true_iff.mp hx.2
          obtain ⟨hy1, hy2⟩ := Bool.and_eq_true_iff.mp hy.2
          rw [decide_eq_true_eq] at hx1 hx2 hy1 hy2
          exact hp.1 y (List.mem_cons_self _ _)
            ⟨hx1.trans hy1.symm, hx2.trans hy2.symm⟩

theorem edgeCount_pos_of_findEdge {es : List Edge} {a c : Item} {e : Edge}
    (h : findEdge es a c = some e) : 0 < edgeCount es a c := by
  unfold findEdge at h
  unfold edgeCount
  have hm := List.find?_some h
  have hmem := List.mem_of_find?_eq_some h
  rw [List.length_pos]
  intro hnil
  have : e ∈ es.filter fun e => decide (e.src = a) && decide (e.tgt = c) :=
    List.mem_filter.mpr ⟨hmem, hm⟩
  rw [hnil] at this
  exact List.not_mem_nil e this

theorem mem_addEdge {es : List Edge} {e x : Edge} (h : x ∈ addEdge es e) :
    x ∈ es ∨ x = e := by
  unfold addEdge at h
  by_cases h2 :
      (es.any fun x0 => decide (x0.src = e.src) && decide (x0.tgt = e.tgt)) = true
  · rw [if_pos h2] at h
    rw [List.mem_map] at h
    obtain ⟨x0, hx0, hval⟩ := h
    by_cases hk : (decide (x0.src = e.src) && decide (x0.tgt = e.tgt)) = true
    · rw [if_pos hk] at hval
      exact Or.inr hval.symm
    · rw [if_neg hk] at hval
      exact Or.inl (hval ▸ hx0)
  · rw [if_neg h2, List.mem_append, List.mem_singleton] at h
    exact h

theorem mem_inner_foldl {w l : ℚ} {xa : Item} {cs : List Item}
    {es : List Edge} {x : Edge}
    (h : x ∈ cs.foldl
      (fun es2 c2 =>
        addEdge es2 { src := xa, tgt := c2, weight := w, title := l }) es) :
    x ∈ es ∨ ∃ c ∈ cs, x = { src := xa, tgt := c, weight := w, title := l } := by
  induction cs generalizing es with
  | nil => exact Or.inl h
  | cons c0 cs ih =>
      rw [List.foldl_cons] at h
      rcases ih h with h1 | h1
      · rcases mem_addEdge h1 with h2 | h2
        · exact Or.inl h2
        · exact Or.inr ⟨c0, List.mem_cons_self _ _, h2⟩
      · obtain ⟨c, hc, hval⟩ := h1
        exact Or.inr ⟨c, List.mem_cons_of_mem _ hc, hval⟩

theorem mem_outer_foldl {w l : ℚ} {as cs : List Item} {es : List Edge}
    {x : Edge}
    (h : x ∈ as.foldl
      (fun es1 a =>
        cs.foldl
          (fun es2 c =>
            addEdge es2 { src := a, tgt := c, weight := w, title := l })
          es1) es) :
    x ∈ es ∨
      ∃ a ∈ as, ∃ c ∈ cs,
        x = { src := a, tgt := c, weight := w, title := l } := by
  induction as generalizing es with
  | nil => exact Or.inl h
  | cons a0 as ih =>
      rw [List.foldl_cons] at h
      rcases ih h with h1 | h1
      · rcases mem_inner_foldl h1 with h2 | h2
        · exact Or.inl h2
        · obtain ⟨c, hc, hval⟩ := h2
          exact Or.inr ⟨a0, List.mem_cons_self _ _, c, hc, hval⟩
      · obtain ⟨a, ha, hrest⟩ := h1
        exact Or.inr ⟨a, List.mem_cons_of_mem _ ha, hrest⟩

theorem mem_addRuleEdges {m : Metric} {r : Rule} {es : List Edge} {x : Edge}
    (h : x ∈ addRuleEdges m es r) :
    x ∈ es ∨
      x.src ∈ r.antecedents ∧ x.tgt ∈ r.consequents ∧
        x.weight = metricValue r m ∧ x.title = r.lift := by
  rcases mem_outer_foldl h with h1 | h1
  · exact Or.inl h1
  · obtain ⟨a, ha, c, hc, hval⟩ := h1
    subst hval
    exact Or.inr ⟨ha, hc, rfl, rfl⟩

theorem mem_foldl_rules {m : Metric} {rl : List Rule} {es : List Edge}
    {x : Edge} (h : x ∈ rl.foldl (addRuleEdges m) es) :
    x ∈ es ∨
      ∃ r ∈ rl, x.src ∈ r.antecedents ∧ x.tgt ∈ r.consequents ∧
        x.weight = metricValue r m ∧ x.title = r.lift := by
  induction rl generalizing es with
  | nil => exact Or.inl h
  | cons r rl ih =>
      rw [List.foldl_cons] at h
      rcases ih h with h1 | h1
      · rcases mem_addRuleEdges h1 with h2 | h2
        · exact Or.inl h2
        · exact Or.inr ⟨r, List.mem_cons_self _ _, h2⟩
      · obtain ⟨r0, hr0, hval⟩ := h1
        exact Or.inr ⟨r0, List.mem_cons_of_mem _ hr0, hval⟩

/-! ## Helper lemmas: one-hot encoding -/

theorem pairCount_pos_iff (pairs : List (Item × Item)) (t i : Item) :
    0 < pairCount pairs t i ↔ (t, i) ∈ pairs := by
  unfold pairCount
  rw [← List.countP_eq_length_filter, List.countP_pos_iff]
  constructor
  · rintro ⟨p, hp, hpred⟩
    obtain ⟨h1, h2⟩ := Bool.and_eq_true_iff.mp hpred
    rw [decide_eq_true_eq] at h1 h2
    have : p = (t, i) := Prod.ext h1 h2
    exact this ▸ hp
  · intro h
    exact ⟨(t, i), h, by simp⟩

theorem basketValue_eq_mem (pairs : List (Item × Item)) (t i : Item) :
    basketValue pairs t i = if (t, i) ∈ pairs then 1 else 0 := by
  unfold basketValue
  by_cases h : (t, i) ∈ pairs
  · rw [if_pos ((pairCount_pos_iff pairs t i).mpr h), if_pos h]
  · rw [if_neg (fun hp => h ((pairCount_pos_iff pairs t i).mp hp)), if_neg h]

theorem transactionsOf_dup (pairs : List (Item × Item)) (p : Item × Item) :
    transactionsOf (p :: p :: pairs) = transactionsOf (p :: pairs) := by
  have hids : transactionIds (p :: p :: pairs) = transactionIds (p :: pairs) := by
    unfold transactionIds
    rw [List.map_cons, List.map_cons,
      List.dedup_cons_of_mem (List.mem_cons_self _ _)]
  have hprod : productList (p :: p :: pairs) = productList (p :: pairs) := by
    unfold productList
    rw [List.map_cons, List.map_cons,
      List.dedup_cons_of_mem (List.mem_cons_self _ _)]
  have hval : ∀ t i,
      basketValue (p :: p :: pairs) t i = basketValue (p :: pairs) t i := by
    intro t i
    rw [basketValue_eq_mem, basketValue_eq_mem]
    by_cases h : (t, i) ∈ p :: pairs
    · rw [if_pos (List.mem_cons_of_mem _ h), if_pos h]
    · rw [if_neg ?_, if_neg h]
      intro hc
      rcases List.mem_cons.mp hc with he | hm
      · exact h (he ▸ List.mem_cons_self _ _)
      · exact h hm
  unfold transactionsOf
  rw [hids, hprod]
  refine List.map_congr_left ?_
  intro t _
  refine List.filter_congr ?_
  intro i _
  rw [hval t i]

/-! ## Helper lemmas: metric minimum -/

theorem foldl_min_le (v : ℚ) (l : List ℚ) :
    (∀ x ∈ l, l.foldl min v ≤ x) ∧ l.foldl min v ≤ v := by
  induction l generalizing v with
  | nil => simp
  | cons x l ih =>
      refine ⟨?_, ?_⟩
      · intro y hy
        rcases List.mem_cons.mp hy with hyx | hym
        · subst hyx
          exact ((ih (min v y)).2).trans (min_le_right _ _)
        · exact (ih (min v x)).1 y hym
      · exact ((ih (min v x)).2).trans (min_le_left _ _)

theorem minMetricValue_le {rules : List Rule} (m : Metric) {r : Rule}
    (h : r ∈ rules) : minMetricValue rules m ≤ metricValue r m := by
  unfold minMetricValue
  cases rules with
  | nil => exact absurd h (List.not_mem_nil r)
  | cons r0 rs =>
      rw [List.map_cons]
      rcases List.mem_cons.mp h with he | hm
      · subst he
        exact (foldl_min_le _ _).2
      · exact (foldl_min_le _ _).1 _ (List.mem_map_of_mem _ hm)

/-! ## Helper lemmas: rule metrics -/

theorem support_partition (ts : List (List Item)) {s ant : Itemset}
    (hsub : ant ⊆ s) :
    support ts (ant ++ s.filter (fun i => i ∉ ant)) = support ts s := by
  unfold support supportCount
  have hmem : ∀ i, i ∈ ant ++ s.filter (fun x => x ∉ ant) ↔ i ∈ s := by
    intro i
    rw [List.mem_append, List.mem_filter]
    constructor
    · rintro (h | ⟨h, _⟩)
      · exact hsub h
      · exact h
    · intro h
      by_cases hi : i ∈ ant
      · exact Or.inl hi
      · exact Or.inr ⟨h, by simpa using hi⟩
  have hall : ∀ t ∈ ts,
      ((ant ++ s.filter fun x => x ∉ ant).all fun i => decide (i ∈ t)) =
        (s.all fun i => decide (i ∈ t)) := by
    intro t _
    rw [Bool.eq_iff_iff, List.all_eq_true, List.all_eq_true]
    constructor
    · intro hf i hi
      exact hf i ((hmem i).mpr hi)
    · intro hf i hi
      exact hf i ((hmem i).mp hi)
  rw [List.filter_congr hall]

theorem mem_ruleCandidates {ts : List (List Item)} {ms : ℚ} {r : Rule}
    (h : r ∈ ruleCandidates ts ms) :
    ∃ s ant, (s, support ts s) ∈ apriori ts ms ∧ ant ⊆ s ∧
      r = ruleOf ts s ant := by
  unfold ruleCandidates at h
  rw [List.mem_flatMap] at h
  obtain ⟨sv, hsv, hr⟩ := h
  rw [List.mem_filter] at hsv
  rw [List.mem_map] at hr
  obtain ⟨ant, hant, hval⟩ := hr
  rw [List.mem_filter, List.mem_sublists] at hant
  obtain ⟨hv, _⟩ := mem_apriori (s := sv.1) (v := sv.2) hsv.1
  refine ⟨sv.1, ant, ?_, hant.1.subset, hval.symm⟩
  have : sv = (sv.1, sv.2) := rfl
  rw [this, hv] at hsv
  exact hsv.1

/-! ## Helper lemmas: the joined-string columns of the export -/

theorem data_joinItems_cons_cons (x y : Item) (xs : List Item) :
    (joinItems (x :: y :: xs)).data =
      x.data ++ ',' :: ' ' :: (joinItems (y :: xs)).data := by
  show (x ++ ", " ++ joinItems (y :: xs)).data = _
  rw [String.data_append, String.data_append, List.append_assoc]
  rfl

theorem comma_mem_joinItems (y z : Item) (xs : List Item) :
    ',' ∈ (joinItems (y :: z :: xs)).data := by
  rw [data_joinItems_cons_cons]
  exact List.mem_append_right _ (List.mem_cons_self _ _)

theorem append_comma_inj {a b u v : List Char}
    (ha : ',' ∉ a) (hb : ',' ∉ b)
    (h : a ++ ',' :: u = b ++ ',' :: v) : a = b ∧ u = v := by
  induction a generalizing b with
  | nil =>
      cases b with
      | nil => simpa using h
      | cons d b =>
          rw [List.nil_append, List.cons_append] at h
          have hd : ',' = d := (List.cons_eq_cons.mp h).1
          exact absurd (hd ▸ List.mem_cons_self d b) hb
  | cons c a ih =>
      cases b with
      | nil =>
          rw [List.nil_append, List.cons_append] at h
          have hc : c = ',' := (List.cons_eq_cons.mp h).1
          exact absurd (hc ▸ List.mem_cons_self c a) ha
      | cons d b =>
          rw [List.cons_append, List.cons_append] at h
          obtain ⟨hcd, htail⟩ := List.cons_eq_cons.mp h
          have ha2 : ',' ∉ a := fun hm => ha (List.mem_cons_of_mem _ hm)
          have hb2 : ',' ∉ b := fun hm => hb (List.mem_cons_of_mem _ hm)
          obtain ⟨hab, huv⟩ := ih ha2 hb2 htail
          exact ⟨by rw [hcd, hab], huv⟩

theorem joinItems_inj {l1 l2 : List Item}
    (h1 : l1 ≠ []) (h2 : l2 ≠ [])
    (hc1 : ∀ s ∈ l1, charFree ',' s) (hc2 : ∀ s ∈ l2, charFree ',' s)
    (h : joinItems l1 = joinItems l2) : l1 = l2 := by
  induction l1 generalizing l2 with
  | nil => exact absurd rfl h1
  | cons x xs ih =>
      cases l2 with
      | nil => exact absurd rfl h2
      | cons y ys =>
          cases xs with
          | nil =>
              cases ys with
              | nil =>
                  show [x] = [y]
                  rw [show joinItems [x] = x from rfl,
                    show joinItems [y] = y from rfl] at h
                  rw [h]
              | cons z zs =>
                  exfalso
                  rw [show joinItems [x] = x from rfl] at h
                  exact hc1 x (List.mem_cons_self _ _)
                    (h ▸ comma_mem_joinItems y z zs)
          | cons x2 xs2 =>
              cases ys with
              | nil =>
                  exfalso
                  rw [show joinItems [y] = y from rfl] at h
                  exact hc2 y (List.mem_cons_self _ _)
                    (h ▸ comma_mem_joinItems x x2 xs2)
              | cons y2 ys2 =>
                  have hd := congrArg String.data h
                  rw [data_joinItems_cons_cons, data_joinItems_cons_cons] at hd
                  obtain ⟨hxy, htail⟩ :=
                    append_comma_inj (hc1 x (List.mem_cons_self _ _))
                      (hc2 y (List.mem_cons_self _ _)) hd
                  have hxs : x = y := String.ext hxy
                  have hjoin : joinItems (x2 :: xs2) = joinItems (y2 :: ys2) :=
                    String.ext (List.cons_eq_cons.mp htail).2
                  have hrest : x2 :: xs2 = y2 :: ys2 :=
                    ih (List.cons_ne_nil _ _) (List.cons_ne_nil _ _)
                      (fun s hs => hc1 s (List.mem_cons_of_mem _ hs))
                      (fun s hs => hc2 s (List.mem_cons_of_mem _ hs)) hjoin
                  rw [hxs, hrest]

/-! ## Claim theorems

The Batteries rational-arithmetic primitives are `irreducible` by default;
within this section they are made semireducible again so that concrete
instances of the pipeline evaluate by `decide`. -/

section ClaimTheorems

attribute [local semireducible] Rat.mul Rat.inv Rat.add Rat.sub

/-- C3 (spec-modelled): for every emitted association rule,
support(rule) = support(antecedent ∪ consequent),
confidence(rule) = support(rule) / support(antecedent) and
lift(rule) = confidence(rule) / support(consequent); and in the worked
example (min_support = min_confidence = 1/2) the rule milk → bread is
emitted with confidence (1/2)/(3/4) and lift ((1/2)/(3/4))/(3/4). -/
theorem C3_metric_identities :
    (∀ (ts : List (List Item)) (ms mc : ℚ) (r : Rule),
        r ∈ associationRules ts ms mc →
          r.support = support ts (r.antecedents ++ r.consequents) ∧
          r.confidence = r.support / support ts r.antecedents ∧
          r.lift = r.confidence / support ts r.consequents) ∧
    { antecedents := ["milk"], consequents := ["bread"], support := 1/2,
      confidence := 1/2 / (3/4), lift := 1/2 / (3/4) / (3/4) : Rule } ∈
      associationRules exampleTransactions (1/2) (1/2) := by
  constructor
  · intro ts ms mc r hr
    rw [associationRules, List.mem_filter] at hr
    obtain ⟨s, ant, _, hsub, hval⟩ := mem_ruleCandidates hr.1
    subst hval
    exact ⟨(support_partition ts hsub).symm, rfl, rfl⟩
  · decide

/-- C3 witness: the general identities applied to the concrete milk → bread
rule of the worked example. -/
theorem C3_metric_identities_witness :
    ({ antecedents := ["milk"], consequents := ["bread"], support := 1/2,
       confidence := 1/2 / (3/4), lift := 1/2 / (3/4) / (3/4) : Rule }.support
        = support exampleTransactions
            (({ antecedents := ["milk"], consequents := ["bread"],
                support := 1/2, confidence := 1/2 / (3/4),
                lift := 1/2 / (3/4) / (3/4) : Rule }).antecedents ++
              ({ antecedents := ["milk"], consequents := ["bread"],
                 support := 1/2, confidence := 1/2 / (3/4),
                 lift := 1/2 / (3/4) / (3/4) : Rule }).consequents)) := by
  have h := C3_metric_identities.1 exampleTransactions (1/2) (1/2)
    { antecedents := ["milk"], consequents := ["bread"], support := 1/2,
      confidence := 1/2 / (3/4), lift := 1/2 / (3/4) / (3/4) }
    (by decide)
  exact h.1

/-- C4 (spec-modelled generator, source-side lift filter): the generator
emits a candidate rule iff its confidence is ≥ min_confidence and enforces
no other threshold; the min_lift filter is applied afterwards by the caller,
so every final rule satisfies both thresholds. -/
theorem C4_two_stage_thresholds (ts : List (List Item)) (ms mc ml : ℚ) :
    (∀ r : Rule, r ∈ associationRules ts ms mc ↔
        r ∈ ruleCandidates ts ms ∧ mc ≤ r.confidence) ∧
    (∀ r : Rule, r ∈ finalRules ts ms mc ml ↔
        r ∈ associationRules ts ms mc ∧ ml ≤ r.lift) ∧
    (∀ r : Rule, r ∈ finalRules ts ms mc ml →
        mc ≤ r.confidence ∧ ml ≤ r.lift) := by
  have h1 : ∀ r : Rule, r ∈ associationRules ts ms mc ↔
      r ∈ ruleCandidates ts ms ∧ mc ≤ r.confidence := by
    intro r
    rw [associationRules, List.mem_filter, decide_eq_true_eq]
  have h2 : ∀ r : Rule, r ∈ finalRules ts ms mc ml ↔
      r ∈ associationRules ts ms mc ∧ ml ≤ r.lift := by
    intro r
    rw [finalRules, List.mem_filter, decide_eq_true_eq]
  refine ⟨h1, h2, ?_⟩
  intro r hr
  obtain ⟨hrr, hl⟩ := (h2 r).mp hr
  exact ⟨((h1 r).mp hrr).2, hl⟩

/-- C4 witness: the two-stage thresholds at the worked example's milk → bread
rule, membership discharged concretely. -/
theorem C4_two_stage_thresholds_witness :
    (1 : ℚ)/2 ≤ (1 : ℚ)/2 / (3/4) ∧
    (0 : ℚ) ≤ (1 : ℚ)/2 / (3/4) / (3/4) := by
  have h := (C4_two_stage_thresholds exampleTransactions (1/2) (1/2) 0).2.2
    { antecedents := ["milk"], consequents := ["bread"], support := 1/2,
      confidence := 1/2 / (3/4), lift := 1/2 / (3/4) / (3/4) }
    (by decide)
  exact h

/-- C5 (spec-modelled): antimonotonicity — support never increases when an
itemset grows, and no superset of an itemset whose support is below
min_support ever appears in the mined output. -/
theorem C5_antimonotonicity :
    (∀ (ts : List (List Item)) (A B : Itemset), A ⊆ B →
        support ts B ≤ support ts A) ∧
    (∀ (ts : List (List Item)) (ms : ℚ) (A B : Itemset) (v : ℚ),
        support ts A < ms → A ⊆ B → (B, v) ∉ apriori ts ms) := by
  refine ⟨fun ts A B h => support_anti ts h, ?_⟩
  intro ts ms A B v hA hAB hmem
  obtain ⟨hv, hms⟩ := mem_apriori hmem
  have hlt : support ts B < ms := (support_anti ts hAB).trans_lt hA
  rw [hv] at hms
  exact absurd hms (not_le.mpr hlt)

/-- C5 witness: the two parts at concrete itemsets of the worked example:
{bread} ⊆ {bread, eggs}, and no superset of the unsupported item "water"
is mined. -/
theorem C5_antimonotonicity_witness :
    support exampleTransactions ["bread", "eggs"] ≤
      support exampleTransactions ["bread"] ∧
    (["milk", "water"], (0 : ℚ)) ∉ apriori exampleTransactions (1/2) := by
  refine ⟨C5_antimonotonicity.1 exampleTransactions ["bread"]
    ["bread", "eggs"] (by decide), ?_⟩
  exact C5_antimonotonicity.2 exampleTransactions (1/2) ["water"]
    ["milk", "water"] 0 (by decide) (by decide)

/-- C6 counterexample: in the worked example with min_support = 1/2, the
itemset {eggs} has support exactly 1/2 and is kept by the inclusive
threshold — it does not fail — and {bread, eggs} is a second frequent
2-itemset, so the claimed enumeration (1-itemsets exactly milk and bread,
only 2-itemset {milk, bread}) is false. -/
theorem C6_counterexample :
    (["eggs"], (1 : ℚ)/2) ∈ apriori exampleTransactions (1/2) ∧
    (["bread", "eggs"], (1 : ℚ)/2) ∈ apriori exampleTransactions (1/2) := by
  decide

/-- C6 (amended, spec-modelled): every mined itemset has
0 ≤ support ≤ 1 and support ≥ min_support with the comparison inclusive;
in the worked example the mined collection is exactly
milk 3/4, bread 3/4, eggs 1/2, {milk, bread} 1/2 and {bread, eggs} 1/2. -/
theorem C6_support_bounds :
    (∀ (ts : List (List Item)) (ms : ℚ) (s : Itemset) (v : ℚ),
        (s, v) ∈ apriori ts ms → 0 ≤ v ∧ v ≤ 1 ∧ ms ≤ v) ∧
    apriori exampleTransactions (1/2) =
      [(["milk"], 3/4), (["bread"], 3/4), (["eggs"], 1/2),
       (["milk", "bread"], 1/2), (["bread", "eggs"], 1/2)] := by
  constructor
  · intro ts ms s v hmem
    obtain ⟨hv, hms⟩ := mem_apriori hmem
    subst hv
    exact ⟨support_nonneg ts s, support_le_one ts s, hms⟩
  · decide

/-- C6 witness: the bounds applied to the concrete frequent itemset
{milk} of the worked example. -/
theorem C6_support_bounds_witness :
    (0 : ℚ) ≤ 3/4 ∧ (3 : ℚ)/4 ≤ 1 ∧ (1 : ℚ)/2 ≤ 3/4 :=
  C6_support_bounds.1 exampleTransactions (1/2) ["milk"] (3/4) (by decide)

/-- C7: the one-hot cell of `basket_sets` is a pure presence bit — it is 1
iff the (transaction, item) pair occurs in the input, however many times —
so duplicating an input row changes neither the encoded transactions nor
the downstream mining result. -/
theorem C7_presence_collapse (pairs : List (Item × Item)) (p : Item × Item)
    (ms : ℚ) :
    (∀ t i : Item,
        basketValue pairs t i = if (t, i) ∈ pairs then 1 else 0) ∧
    transactionsOf (p :: p :: pairs) = transactionsOf (p :: pairs) ∧
    apriori (transactionsOf (p :: p :: pairs)) ms =
      apriori (transactionsOf (p :: pairs)) ms := by
  refine ⟨basketValue_eq_mem pairs, transactionsOf_dup pairs p, ?_⟩
  rw [transactionsOf_dup pairs p]

/-- C7 witness: a duplicated row at a concrete input. -/
theorem C7_presence_collapse_witness :
    transactionsOf [("t1", "a"), ("t1", "a")] = transactionsOf [("t1", "a")] :=
  (C7_presence_collapse [] ("t1", "a") 1).2.1

/-- C8 (spec-modelled): a transaction count of zero is an
`EmptyDatasetError` surfaced before mining; a non-empty dataset always
yields an `ok` result, so empty mining or rule collections are valid
output, not errors. -/
theorem C8_empty_dataset_error (pairs : List (Item × Item)) (ms mc ml : ℚ) :
    (transactionsOf pairs = [] →
        pipeline pairs ms mc ml = .error .emptyDataset) ∧
    (transactionsOf pairs ≠ [] →
        pipeline pairs ms mc ml =
          .ok (finalRules (transactionsOf pairs) ms mc ml)) := by
  constructor
  · intro h
    unfold pipeline
    rw [if_pos (by rw [h]; rfl)]
  · intro h
    unfold pipeline
    rw [if_neg (by rw [List.length_eq_zero]; exact h)]

/-- C8 witness: the empty dataset is an error; one row with maximal
thresholds yields the empty rule collection as valid `ok` output. -/
theorem C8_empty_dataset_error_witness :
    pipeline [] 1 1 1 = .error .emptyDataset ∧
    pipeline [("t1", "a")] 1 1 1 = .ok [] := by
  constructor
  · exact (C8_empty_dataset_error [] 1 1 1).1 rfl
  · rw [(C8_empty_dataset_error [("t1", "a")] 1 1 1).2 (by decide)]
    have h : finalRules (transactionsOf [("t1", "a")]) 1 1 1 = [] := by decide
    rw [h]

/-- C10: the default graph threshold is the observed minimum of the selected
metric over the filtered rules, and the ≥ filter at that default keeps every
rule, so every surviving rule contributes its edges to the default graph. -/
theorem C10_default_threshold_keeps_all (rules : List Rule) (m : Metric) :
    filteredRules rules m (minMetricValue rules m) = rules ∧
    (∀ r : Rule, r ∈ rules → ∀ a ∈ r.antecedents, ∀ c ∈ r.consequents,
      findEdge (drawNetworkGraph rules m (minMetricValue rules m)) a c ≠
        none) := by
  have hfull : filteredRules rules m (minMetricValue rules m) = rules := by
    unfold filteredRules
    refine List.filter_eq_self.mpr ?_
    intro r hr
    rw [decide_eq_true_eq]
    exact minMetricValue_le m hr
  refine ⟨hfull, ?_⟩
  intro r hr a ha c hc
  unfold drawNetworkGraph
  rw [findEdge_foldl_rules, hfull]
  cases hlast :
      (rules.filter
        (fun r => a ∈ r.antecedents && c ∈ r.consequents)).getLast? with
  | some r0 => simp
  | none =>
      exfalso
      rw [List.getLast?_eq_none_iff] at hlast
      have : r ∈ rules.filter
          (fun r => a ∈ r.antecedents && c ∈ r.consequents) :=
        List.mem_filter.mpr ⟨hr, by simp [ha, hc]⟩
      rw [hlast] at this
      exact List.not_mem_nil r this

/-- C10 witness: at a concrete one-rule table the default threshold keeps
the rule and its edge is present. -/
theorem C10_default_threshold_keeps_all_witness :
    findEdge
        (drawNetworkGraph
          [{ antecedents := ["a"], consequents := ["b"], support := 1/2,
             confidence := 2/3, lift := 9/8 }]
          Metric.confidence
          (minMetricValue
            [{ antecedents := ["a"], consequents := ["b"], support := 1/2,
               confidence := 2/3, lift := 9/8 }] Metric.confidence))
        "a" "b" ≠ none := by
  refine (C10_default_threshold_keeps_all
    [{ antecedents := ["a"], consequents := ["b"], support := 1/2,
       confidence := 2/3, lift := 9/8 }] Metric.confidence).2
    { antecedents := ["a"], consequents := ["b"], support := 1/2,
      confidence := 2/3, lift := 9/8 }
    (by decide) "a" (by decide) "b" (by decide)

/-- The full characterization of edge lookup in the built graph: the unique
edge on an ordered pair carries the attributes of the last surviving rule, in
iteration order, that contributes that pair. -/
theorem findEdge_drawNetworkGraph (rules : List Rule) (m : Metric)
    (minVal : ℚ) (a c : Item) :
    findEdge (drawNetworkGraph rules m minVal) a c =
      (lastRuleFor rules m minVal a c).map
        (fun r =>
          { src := a, tgt := c, weight := metricValue r m,
            title := r.lift }) := by
  unfold drawNetworkGraph lastRuleFor
  rw [findEdge_foldl_rules]
  cases ((filteredRules rules m minVal).filter
    (fun r => a ∈ r.antecedents && c ∈ r.consequents)).getLast? with
  | some r0 => rfl
  | none => rfl

/-- C1 counterexample: two rules that both produce the ordered pair
(a, b), with confidence weights 9/10 and then 3/5; the resulting graph keeps
the single edge with weight 3/5 — the weight of the last-inserted rule —
which is not the maximum 9/10. -/
theorem C1_counterexample :
    drawNetworkGraph
        [{ antecedents := ["a"], consequents := ["b"], support := 1/2,
           confidence := 9/10, lift := 2 },
         { antecedents := ["a"], consequents := ["b"], support := 1/2,
           confidence := 3/5, lift := 3 }]
        Metric.confidence 0 =
      [{ src := "a", tgt := "b", weight := 3/5, title := 3 }] ∧
    (3/5 : ℚ) ≠ max (9/10 : ℚ) (3/5 : ℚ) := by
  constructor
  · decide
  · decide

/-- C1 (amended): when several surviving rules produce the same ordered item
pair (X, Y) — in particular two rules with different selected-metric
weights — the graph contains exactly one directed edge (X, Y), and its
weight is the selected-metric value of the *last* such rule in iteration
order (`DiGraph.add_edge` replaces attributes on re-insertion), not the
maximum. -/
theorem C1_last_write_wins (rules : List Rule) (m : Metric) (minVal : ℚ)
    (X Y : Item) (r1 r2 : Rule)
    (h1 : r1 ∈ filteredRules rules m minVal)
    (h2 : r2 ∈ filteredRules rules m minVal)
    (ha1 : X ∈ r1.antecedents) (hc1 : Y ∈ r1.consequents)
    (ha2 : X ∈ r2.antecedents) (hc2 : Y ∈ r2.consequents)
    (hw : metricValue r1 m ≠ metricValue r2 m) :
    lastRuleFor rules m minVal X Y ≠ none ∧
    edgeCount (drawNetworkGraph rules m minVal) X Y = 1 ∧
    findEdge (drawNetworkGraph rules m minVal) X Y =
      (lastRuleFor rules m minVal X Y).map
        (fun r =>
          { src := X, tgt := Y, weight := metricValue r m,
            title := r.lift }) := by
  have hmem : r1 ∈ (filteredRules rules m minVal).filter
      (fun r => X ∈ r.antecedents && Y ∈ r.consequents) :=
    List.mem_filter.mpr ⟨h1, by simp [ha1, hc1]⟩
  have hne : lastRuleFor rules m minVal X Y ≠ none := by
    unfold lastRuleFor
    rw [Ne, List.getLast?_eq_none_iff]
    intro hnil
    rw [hnil] at hmem
    exact List.not_mem_nil r1 hmem
  refine ⟨hne, ?_, findEdge_drawNetworkGraph rules m minVal X Y⟩
  obtain ⟨r0, hr0⟩ := Option.ne_none_iff_exists'.mp hne
  have hfind : findEdge (drawNetworkGraph rules m minVal) X Y =
      some { src := X, tgt := Y, weight := metricValue r0 m,
             title := r0.lift } := by
    rw [findEdge_drawNetworkGraph, hr0]
    rfl
  have hle := edgeCount_le_one
    (pairsNodup_drawNetworkGraph rules m minVal) X Y
  have hpos := edgeCount_pos_of_findEdge hfind
  exact Nat.le_antisymm hle hpos

/-- C1 witness: the amended statement at the concrete two-rule collision of
the counterexample input. -/
theorem C1_last_write_wins_witness :
    lastRuleFor
        [{ antecedents := ["a"], consequents := ["b"], support := 1/2,
           confidence := 9/10, lift := 2 },
         { antecedents := ["a"], consequents := ["b"], support := 1/2,
           confidence := 3/5, lift := 3 }] Metric.confidence 0 "a" "b" ≠
      none ∧
    edgeCount
        (drawNetworkGraph
          [{ antecedents := ["a"], consequents := ["b"], support := 1/2,
             confidence := 9/10, lift := 2 },
           { antecedents := ["a"], consequents := ["b"], support := 1/2,
             confidence := 3/5, lift := 3 }] Metric.confidence 0)
        "a" "b" = 1 ∧
    findEdge
        (drawNetworkGraph
          [{ antecedents := ["a"], consequents := ["b"], support := 1/2,
             confidence := 9/10, lift := 2 },
           { antecedents := ["a"], consequents := ["b"], support := 1/2,
             confidence := 3/5, lift := 3 }] Metric.confidence 0)
        "a" "b" =
      (lastRuleFor
          [{ antecedents := ["a"], consequents := ["b"], support := 1/2,
             confidence := 9/10, lift := 2 },
           { antecedents := ["a"], consequents := ["b"], support := 1/2,
             confidence := 3/5, lift := 3 }] Metric.confidence 0
          "a" "b").map
        (fun r =>
          { src := "a", tgt := "b", weight := metricValue r Metric.confidence,
            title := r.lift }) :=
  C1_last_write_wins
    [{ antecedents := ["a"], consequents := ["b"], support := 1/2,
       confidence := 9/10, lift := 2 },
     { antecedents := ["a"], consequents := ["b"], support := 1/2,
       confidence := 3/5, lift := 3 }] Metric.confidence 0 "a" "b"
    { antecedents := ["a"], consequents := ["b"], support := 1/2,
      confidence := 9/10, lift := 2 }
    { antecedents := ["a"], consequents := ["b"], support := 1/2,
      confidence := 3/5, lift := 3 }
    (by decide) (by decide) (by decide) (by decide) (by decide) (by decide)
    (by decide)

/-- C2: graph construction keeps exactly the rules whose selected-metric
value is ≥ min_value; the graph has an edge on (a, c) iff some surviving
rule has a in its antecedents and c in its consequents (the full cross
product); each stored edge carries the selected-metric value and lift of a
surviving rule contributing its pair; and the nodes are exactly the items
incident to at least one edge. -/
theorem C2_graph_construction (rules : List Rule) (m : Metric)
    (minVal : ℚ) :
    (∀ r : Rule, r ∈ filteredRules rules m minVal ↔
        r ∈ rules ∧ minVal ≤ metricValue r m) ∧
    (∀ a c : Item,
        findEdge (drawNetworkGraph rules m minVal) a c ≠ none ↔
          ∃ r ∈ filteredRules rules m minVal,
            a ∈ r.antecedents ∧ c ∈ r.consequents) ∧
    (∀ e : Edge, e ∈ drawNetworkGraph rules m minVal →
        ∃ r ∈ filteredRules rules m minVal,
          e.src ∈ r.antecedents ∧ e.tgt ∈ r.consequents ∧
            e.weight = metricValue r m ∧ e.title = r.lift) ∧
    (∀ i : Item, i ∈ graphNodes (drawNetworkGraph rules m minVal) ↔
        ∃ e ∈ drawNetworkGraph rules m minVal, e.src = i ∨ e.tgt = i) := by
  refine ⟨?_, ?_, ?_, ?_⟩
  · intro r
    rw [filteredRules, List.mem_filter, decide_eq_true_eq]
  · intro a c
    rw [findEdge_drawNetworkGraph]
    unfold lastRuleFor
    cases hlast : ((filteredRules rules m minVal).filter
        (fun r => a ∈ r.antecedents && c ∈ r.consequents)).getLast? with
    | some r0 =>
        have hr0mem : r0 ∈ (filteredRules rules m minVal).filter
            (fun r => a ∈ r.antecedents && c ∈ r.consequents) := by
          obtain ⟨ys, hys⟩ := List.getLast?_eq_some_iff.mp hlast
          rw [hys]
          exact List.mem_append_right _ (List.mem_cons_self _ _)
        rw [List.mem_filter] at hr0mem
        obtain ⟨hm1, hm2⟩ := Bool.and_eq_true_iff.mp hr0mem.2
        rw [decide_eq_true_eq] at hm1 hm2
        constructor
        · intro _
          exact ⟨r0, hr0mem.1, hm1, hm2⟩
        · intro _
          simp
    | none =>
        rw [List.getLast?_eq_none_iff] at hlast
        constructor
        · intro hne
          exact absurd rfl hne
        · rintro ⟨r, hr, ha, hc⟩
          exfalso
          have : r ∈ (filteredRules rules m minVal).filter
              (fun r => a ∈ r.antecedents && c ∈ r.consequents) :=
            List.mem_filter.mpr ⟨hr, by simp [ha, hc]⟩
          rw [hlast] at this
          exact List.not_mem_nil r this
  · intro e he
    rcases mem_foldl_rules he with h | h
    · exact absurd h (List.not_mem_nil e)
    · exact h
  · intro i
    unfold graphNodes
    rw [List.mem_dedup, List.mem_flatMap]
    constructor
    · rintro ⟨e, he, hi⟩
      rcases List.mem_cons.mp hi with h | h
      · exact ⟨e, he, Or.inl h.symm⟩
      · rw [List.mem_singleton] at h
        exact ⟨e, he, Or.inr h.symm⟩
    · rintro ⟨e, he, h | h⟩
      · exact ⟨e, he, h ▸ List.mem_cons_self _ _⟩
      · exact ⟨e, he, by rw [← h]; exact
          List.mem_cons_of_mem _ (List.mem_cons_self _ _)⟩

/-- C2 witness: the survivor characterization instantiated at a concrete
one-rule table. -/
theorem C2_graph_construction_witness :
    { antecedents := ["a"], consequents := ["b"], support := 1/2,
      confidence := 2/3, lift := 9/8 : Rule } ∈
        filteredRules
          [{ antecedents := ["a"], consequents := ["b"], support := 1/2,
             confidence := 2/3, lift := 9/8 }] Metric.confidence 0 ↔
      { antecedents := ["a"], consequents := ["b"], support := 1/2,
        confidence := 2/3, lift := 9/8 : Rule } ∈
          [{ antecedents := ["a"], consequents := ["b"], support := 1/2,
             confidence := 2/3, lift := 9/8 : Rule }] ∧
        (0 : ℚ) ≤ metricValue
          { antecedents := ["a"], consequents := ["b"], support := 1/2,
            confidence := 2/3, lift := 9/8 } Metric.confidence :=
  (C2_graph_construction
    [{ antecedents := ["a"], consequents := ["b"], support := 1/2,
       confidence := 2/3, lift := 9/8 }] Metric.confidence 0).1
    { antecedents := ["a"], consequents := ["b"], support := 1/2,
      confidence := 2/3, lift := 9/8 }

/-- C9 counterexample: the export of the rule with antecedent set
{"a", "b"} and that of the rule with the single antecedent item "a, b"
are identical, while the rule tables differ, so no deserializer can
recover the original item sets — the round trip is not lossless in
general. -/
theorem C9_counterexample :
    convert_df_to_csv
        [{ antecedents := ["a", "b"], consequents := ["c"], support := 1/2,
           confidence := 1/2, lift := 1 }] =
      convert_df_to_csv
        [{ antecedents := ["a, b"], consequents := ["c"], support := 1/2,
           confidence := 1/2, lift := 1 }] ∧
    ({ antecedents := ["a", "b"], consequents := ["c"], support := 1/2,
       confidence := 1/2, lift := 1 : Rule }) ≠
      ({ antecedents := ["a, b"], consequents := ["c"], support := 1/2,
         confidence := 1/2, lift := 1 : Rule }) := by
  constructor
  · decide
  · decide

/-- C9 (amended): the export is a lossless round trip of the five columns
provided no item name contains a comma (and antecedent/consequent sets are
non-empty, as rules guarantee): two rule tables with identical exports are
identical. -/
theorem C9_roundtrip_comma_free {t1 t2 : List Rule}
    (hw1 : ∀ r ∈ t1, r.antecedents ≠ [] ∧ r.consequents ≠ [] ∧
        (∀ s ∈ r.antecedents, charFree ',' s) ∧
        (∀ s ∈ r.consequents, charFree ',' s))
    (hw2 : ∀ r ∈ t2, r.antecedents ≠ [] ∧ r.consequents ≠ [] ∧
        (∀ s ∈ r.antecedents, charFree ',' s) ∧
        (∀ s ∈ r.consequents, charFree ',' s))
    (h : convert_df_to_csv t1 = convert_df_to_csv t2) : t1 = t2 := by
  induction t1 generalizing t2 with
  | nil =>
      cases t2 with
      | nil => rfl
      | cons r2 t2 => exact absurd h (by simp [convert_df_to_csv])
  | cons r1 t1 ih =>
      cases t2 with
      | nil => exact absurd h (by simp [convert_df_to_csv])
      | cons r2 t2 =>
          unfold convert_df_to_csv at h
          rw [List.map_cons, List.map_cons] at h
          obtain ⟨hrow, htail⟩ := List.cons_eq_cons.mp h
          obtain ⟨ha1, hc1s, hcf1a, hcf1c⟩ := hw1 r1 (List.mem_cons_self _ _)
          obtain ⟨ha2, hc2s, hcf2a, hcf2c⟩ := hw2 r2 (List.mem_cons_self _ _)
          have hant : r1.antecedents = r2.antecedents :=
            joinItems_inj ha1 ha2 hcf1a hcf2a (congrArg CsvRow.antecedents hrow)
          have hcons : r1.consequents = r2.consequents :=
            joinItems_inj hc1s hc2s hcf1c hcf2c (congrArg CsvRow.consequents hrow)
          have hsup : r1.support = r2.support :=
            congrArg CsvRow.support hrow
          have hconf : r1.confidence = r2.confidence :=
            congrArg CsvRow.confidence hrow
          have hlift : r1.lift = r2.lift :=
            congrArg CsvRow.lift hrow
          have hr : r1 = r2 := by
            cases r1
            cases r2
            simp only [Rule.mk.injEq]
            exact ⟨hant, hcons, hsup, hconf, hlift⟩
          have ht : t1 = t2 :=
            ih (fun r hr0 => hw1 r (List.mem_cons_of_mem _ hr0))
              (fun r hr0 => hw2 r (List.mem_cons_of_mem _ hr0)) htail
          rw [hr, ht]

/-- C9 witness: the amended round trip at a concrete comma-free table. -/
theorem C9_roundtrip_comma_free_witness :
    [{ antecedents := ["x"], consequents := ["y"], support := 1/2,
       confidence := 1/2, lift := 1 : Rule }] =
      [{ antecedents := ["x"], consequents := ["y"], support := 1/2,
         confidence := 1/2, lift := 1 : Rule }] :=
  @C9_roundtrip_comma_free
    [{ antecedents := ["x"], consequents := ["y"], support := 1/2,
       confidence := 1/2, lift := 1 }]
    [{ antecedents := ["x"], consequents := ["y"], support := 1/2,
       confidence := 1/2, lift := 1 }]
    (by decide) (by decide) rfl

end ClaimTheorems

end MBA
